import Mathlib

/-!
Verification of the streaming chat relay of the founder-llm repository.

The client side is embedded from `src/frontend/lib/api.ts` (the SSE parsing
generator `streamChatMessage`) and from the chat page component
(`handleSend`, `FileList`, `loadChatFiles`).  The database schema and its
row-level-security policies are embedded from `src/backend/supabase.sql`,
and the admin file listing from `src/frontend/app/api/admin/files/route.ts`.
The backend relay service (a FastAPI app) is not part of the source tree;
where a claim depends on it, the relevant contract is modelled from the
specification and marked as such in its doc comment.

JavaScript strings are modelled as `List Char`; byte streams arrive as a
list of already-decoded text chunks (TextDecoder with stream mode emits a
partition of the decoded text, so this loses no generality for the
chunking-insensitivity property).
-/

/-- Whitespace test modelling the characters relevant to JavaScript
`String.prototype.trim` for this protocol (space, tab, newline, carriage
return). -/
def isWs (c : Char) : Bool :=
  c = ' ' || c = '\t' || c = '\n' || c = '\r'

/-- Drop trailing whitespace, second half of JavaScript `trim`. -/
def dropTrailingWs (l : List Char) : List Char :=
  (l.reverse.dropWhile isWs).reverse

/-- JavaScript `String.prototype.trim` on a character list. -/
def jsTrim (l : List Char) : List Char :=
  dropTrailingWs (l.dropWhile isWs)

/-- Concatenation of a list of strings (used for `buffer` accumulation and
for joining yielded fragments). -/
def catL : List (List Char) → List Char
  | [] => []
  | x :: xs => x ++ catL xs

/-- JavaScript `startsWith` on character lists: `startsWithL p l` is true
when `p` is an initial segment of `l`. -/
def startsWithL : List Char → List Char → Bool
  | [], _ => true
  | _ :: _, [] => false
  | p :: ps, c :: cs => p = c && startsWithL ps cs

/-- One character of the newline split: prepend `c` to an already-split
tail. -/
def splitNlStep (c : Char) (p : List (List Char) × List Char) : List (List Char) × List Char :=
  if c = '\n' then ([] :: p.1, p.2)
  else
    match p.1 with
    | [] => ([], c :: p.2)
    | l :: ls => ((c :: l) :: ls, p.2)

/-- JavaScript `buffer.split('\n')` followed by `lines.pop()`:
returns the complete (newline-terminated) lines and the trailing
incomplete remainder, exactly as `api.ts:81-82` computes them. -/
def splitNl : List Char → List (List Char) × List Char
  | [] => ([], [])
  | c :: rest => splitNlStep c (splitNl rest)

/-- JSON whitespace skipping used by the model of `JSON.parse`. -/
def skipWs : List Char → List Char
  | [] => []
  | c :: r => if isWs c then skipWs r else c :: r

/-- Decoding of a two-character JSON string escape (`JSON.parse` rejects an
invalid escape, modelled by `none`; `\u` escapes are not produced by the
envelopes this protocol carries and are likewise rejected here). -/
def unescapeChar (d : Char) : Option Char :=
  if d = '"' then some '"'
  else if d = '\\' then some '\\'
  else if d = '/' then some '/'
  else if d = 'n' then some '\n'
  else if d = 'r' then some '\r'
  else if d = 't' then some '\t'
  else if d = 'b' then some '\x08'
  else if d = 'f' then some '\x0c'
  else none

/-- JSON string-body scanner: consumes characters up to the closing quote,
resolving escapes; returns the decoded string and the unconsumed rest. -/
def parseStringBody : List Char → Option (List Char × List Char)
  | [] => none
  | c :: rest =>
    if c = '"' then some ([], rest)
    else if c = '\\' then
      match rest with
      | [] => none
      | d :: rest2 =>
        match unescapeChar d, parseStringBody rest2 with
        | some u, some (s, r) => some (u :: s, r)
        | _, _ => none
    else
      match parseStringBody rest with
      | some (s, r) => some (c :: s, r)
      | none => none

/-- A quoted JSON string: expects an opening quote then a string body. -/
def parseJString : List Char → Option (List Char × List Char)
  | [] => none
  | c :: rest => if c = '"' then parseStringBody rest else none

/-- Members of a flat JSON object whose values are strings (the shape of
every envelope on this protocol); fuelled to keep the recursion
structural. -/
def parseMembersF : Nat → List Char → Option (List (List Char × List Char) × List Char)
  | 0, _ => none
  | fuel + 1, s =>
    match parseJString s with
    | none => none
    | some (k, r1) =>
      match skipWs r1 with
      | [] => none
      | c :: r3 =>
        if c = ':' then
          match parseJString (skipWs r3) with
          | none => none
          | some (v, r4) =>
            match skipWs r4 with
            | [] => some ([(k, v)], [])
            | c2 :: r5 =>
              if c2 = ',' then
                match parseMembersF fuel (skipWs r5) with
                | some (ms, r) => some ((k, v) :: ms, r)
                | none => none
              else some ([(k, v)], c2 :: r5)
        else none

/-- Model of `JSON.parse` restricted to the envelope grammar of this
protocol: a flat object with string values.  Any other input yields `none`
(the exception `JSON.parse` would raise, which `api.ts:107` swallows). -/
def jsonParse (s : List Char) : Option (List (List Char × List Char)) :=
  match skipWs s with
  | c :: r =>
    if c = '\x7b' then
      match skipWs r with
      | c2 :: r2 =>
        if c2 = '\x7d' then (if skipWs r2 = [] then some [] else none)
        else
          match parseMembersF (r2.length + 1) (c2 :: r2) with
          | some (ms, r3) =>
            match skipWs r3 with
            | c4 :: r4 => if c4 = '\x7d' ∧ skipWs r4 = [] then some ms else none
            | [] => none
          | none => none
      | [] => none
    else none
  | [] => none

/-- Field access on a parsed JSON object (`parsed.content`, `parsed.error`);
with duplicate keys `JSON.parse` keeps the last, hence the left fold. -/
def getField (obj : List (List Char × List Char)) (k : List Char) : Option (List Char) :=
  obj.foldl (fun acc kv => if kv.1 = k then some kv.2 else acc) none

/-- JavaScript truthiness of a string: every string except the empty one. -/
def truthy (v : List Char) : Bool :=
  !v.isEmpty

def contentKey : List Char := ['c', 'o', 'n', 't', 'e', 'n', 't']

def errorKey : List Char := ['e', 'r', 'r', 'o', 'r']

def dataTag : List Char := ['d', 'a', 't', 'a', ':', ' ']

def doneLit : List Char := ['[', 'D', 'O', 'N', 'E', ']']

/-- The fragments delivered by the try block of `api.ts:99-110` for one
parsed envelope: `parsed.content` is yielded when truthy.  A truthy
`parsed.error` additionally raises inside the same try block, but the
catch clause at line 107 swallows that exception, so it contributes
nothing observable. -/
def parsedYields (parsed : List (List Char × List Char)) : List (List Char) :=
  match getField parsed contentKey with
  | some c => if truthy c then [c] else []
  | none => []

/-- Processing of one complete line by the loop body of `api.ts:84-111`:
returns the fragments yielded for this line and whether the generator
returns (the `[DONE]` signal at line 92). -/
def processLine (line : List Char) : List (List Char) × Bool :=
  let trimmedLine := jsTrim line
  if trimmedLine = [] then ([], false)
  else if startsWithL dataTag trimmedLine then
    let data := jsTrim (trimmedLine.drop 6)
    if data = doneLit then ([], true)
    else if data = [] then ([], false)
    else
      match jsonParse data with
      | none => ([], false)
      | some parsed => (parsedYields parsed, false)
  else ([], false)

/-- Sequential processing of the complete lines of one read, stopping at
the first `[DONE]` (the `return` at `api.ts:93`). -/
def runLines (acc : List (List Char)) : List (List Char) → List (List Char) × Bool
  | [] => (acc, false)
  | l :: ls =>
    let e := processLine l
    if e.2 then (acc ++ e.1, true)
    else runLines (acc ++ e.1) ls

/-- The read loop of `api.ts:74-113`: each chunk is appended to the line
buffer, complete lines are processed, and the incomplete tail is carried
into the next read; a leftover buffer at end of stream is never parsed. -/
def runChunks (buffer : List Char) (acc : List (List Char)) : List (List Char) → List (List Char)
  | [] => acc
  | chunk :: rest =>
    let p := splitNl (buffer ++ chunk)
    let r := runLines acc p.1
    if r.2 then r.1 else runChunks p.2 r.1 rest

/-- The fragments yielded by the generator body of `streamChatMessage` for
a given sequence of read chunks. -/
def streamYields (chunks : List (List Char)) : List (List Char) :=
  runChunks [] [] chunks

/-- The HTTP response seen by `streamChatMessage`: the `ok` flag and, when a
body is present, the sequence of decoded read chunks it will deliver. -/
structure FetchResponse where
  ok : Bool
  body : Option (List (List Char))
deriving DecidableEq

/-- Observable outcome of running the async generator to completion: the
fragments it yielded, and the exception it raised to the caller, if any. -/
structure GenResult where
  yields : List (List Char)
  thrown : Option (List Char)
deriving DecidableEq

def failedMsg : List Char := "Failed to send message".data

def noBodyMsg : List Char := "No response body".data

/-- `streamChatMessage` of `api.ts:48-117`: a non-ok response or a missing
body raises before any read; otherwise the generator runs the read loop,
whose body can raise nothing to the caller (every throw inside it sits in
the try block whose catch clause swallows the exception). -/
def streamChatMessage (resp : FetchResponse) : GenResult :=
  if resp.ok = false then ⟨[], some failedMsg⟩
  else
    match resp.body with
    | none => ⟨[], some noBodyMsg⟩
    | some chunks => ⟨streamYields chunks, none⟩

inductive Role
  | user
  | assistant
deriving DecidableEq

/-- A message of the chat page component state (`ChatInterface`). -/
structure Msg where
  role : Role
  content : List Char
deriving DecidableEq

/-- The component state touched by `handleSend`. -/
structure ChatState where
  messages : List Msg
  input : List Char
  isStreaming : Bool
deriving DecidableEq

def errorFallback : List Char := "Sorry, there was an error processing your request.".data

/-- The `setMessages` updater of `handleSend` (ChatInterface lines 327-334):
overwrite the content of the last message when its role is assistant. -/
def updateLastAssistant : List Msg → List Char → List Msg
  | [], _ => []
  | [m], c => if m.role = Role.assistant then [⟨Role.assistant, c⟩] else [m]
  | m :: m2 :: rest, c => m :: updateLastAssistant (m2 :: rest) c

/-- The `for await` accumulation loop of `handleSend`: each chunk is
appended to `fullContent` and written into the trailing assistant
message. -/
def streamLoop (msgs : List Msg) (fullContent : List Char) : List (List Char) → List Msg × List Char
  | [] => (msgs, fullContent)
  | chunk :: rest =>
    let fc := fullContent ++ chunk
    streamLoop (updateLastAssistant msgs fc) fc rest

/-- `handleSend` of the `ChatInterface` component: returns the new state and
whether `streamChatMessage` was invoked.  An empty-after-trim input (or a
send already in flight) returns immediately, appending nothing. -/
def handleSend (st : ChatState) (resp : FetchResponse) : ChatState × Bool :=
  if jsTrim st.input = [] ∨ st.isStreaming = true then (st, false)
  else
    let msgs2 := st.messages ++ [⟨Role.user, st.input⟩, ⟨Role.assistant, []⟩]
    let gen := streamChatMessage resp
    let looped := streamLoop msgs2 [] gen.yields
    match gen.thrown with
    | none => ({ messages := looped.1, input := [], isStreaming := false }, true)
    | some _ => ({ messages := updateLastAssistant looped.1 errorFallback, input := [], isStreaming := false }, true)

/-- Modelled from the spec: the response grammar of `send-message` (§6,
Inbound RPC) — zero or more content frames, optionally one error frame,
terminated by a `[DONE]` frame.  The backend service that emits these
frames (the FastAPI relay) is not under src/. -/
inductive Frame
  | content (s : List Char)
  | error (e : List Char)
  | done
deriving DecidableEq

/-- Two-character JSON string escapes as produced by the backend encoder
(quote, backslash, newline, carriage return, tab); other characters are
carried literally. -/
def escapeChar (c : Char) : List Char :=
  if c = '"' then ['\\', '"']
  else if c = '\\' then ['\\', '\\']
  else if c = '\n' then ['\\', 'n']
  else if c = '\r' then ['\\', 'r']
  else if c = '\t' then ['\\', 't']
  else [c]

def escape : List Char → List Char
  | [] => []
  | c :: cs => escapeChar c ++ escape cs

/-- Interior of a one-member JSON object, between the opening brace and the
closing brace. -/
def objBody (k v : List Char) : List Char :=
  '"' :: (k ++ ['"', ':', ' ', '"'] ++ escape v ++ ['"'])

/-- Modelled from the spec: the JSON envelope of one SSE frame, a
one-member object with a string value. -/
def encodeObj (k v : List Char) : List Char :=
  '\x7b' :: (objBody k v ++ ['\x7d'])

/-- Modelled from the spec: the data payload of one frame. -/
def encodeFrame : Frame → List Char
  | Frame.content s => encodeObj contentKey s
  | Frame.error e => encodeObj errorKey e
  | Frame.done => doneLit

/-- Modelled from the spec: one Server-Sent Event on the wire, a `data:`
line followed by the blank line ending the event. -/
def frameLine (f : Frame) : List Char :=
  dataTag ++ encodeFrame f ++ ['\n', '\n']

/-- Modelled from the spec: the full byte stream of a response, the
concatenated wire forms of its frames. -/
def wireL (frames : List Frame) : List Char :=
  catL (frames.map frameLine)

/-- The fragment sequence the parser extracts from a framed stream: truthy
contents of content frames up to the first `[DONE]`. -/
def frameYields : List Frame → List (List Char)
  | [] => []
  | Frame.content s :: fs => (if s = [] then [] else [s]) ++ frameYields fs
  | Frame.error _ :: fs => frameYields fs
  | Frame.done :: _ => []

/-- Whether a framed stream contains a `[DONE]` frame, i.e. whether the
generator returns early. -/
def frameStopsAt : List Frame → Bool
  | [] => false
  | Frame.done :: _ => true
  | _ :: fs => frameStopsAt fs

/-- The `data:` line of one frame (its wire form without the event
terminator). -/
def dataLineOf (f : Frame) : List Char :=
  dataTag ++ encodeFrame f

/-- The complete lines of a framed stream: for each frame its `data:` line
followed by the blank separator line. -/
def linesOf : List Frame → List (List Char)
  | [] => []
  | f :: fs => dataLineOf f :: [] :: linesOf fs

lemma splitNlStep_nl (p : List (List Char) × List Char) :
    splitNlStep '\n' p = ([] :: p.1, p.2) := rfl

lemma splitNlStep_other (c : Char) (p : List (List Char) × List Char) (hc : c ≠ '\n') :
    splitNlStep c p =
      (match p.1 with
       | [] => ([], c :: p.2)
       | l :: ls => ((c :: l) :: ls, p.2)) := by
  simp [splitNlStep, hc]

lemma splitNl_append (a b : List Char) :
    splitNl (a ++ b) =
      ((splitNl a).1 ++ (splitNl ((splitNl a).2 ++ b)).1,
       (splitNl ((splitNl a).2 ++ b)).2) := by
  induction a with
  | nil => simp [splitNl]
  | cons c a ih =>
    simp only [List.cons_append, splitNl, List.append_eq]
    rw [ih]
    by_cases hc : c = '\n'
    · subst hc
      simp [splitNlStep_nl]
    · rcases h1 : (splitNl a).1 with _ | ⟨l, ls⟩
      · simp only [splitNlStep_other _ _ hc, h1, List.nil_append, List.cons_append]
        rcases h2 : (splitNl ((splitNl a).2 ++ b)).1 with _ | ⟨l2, ls2⟩ <;>
          simp [splitNl, splitNlStep_other _ _ hc, h2]
      · simp [splitNlStep_other _ _ hc, h1]

lemma runLines_append (acc : List (List Char)) (xs ys : List (List Char)) :
    runLines acc (xs ++ ys) =
      (if (runLines acc xs).2 then runLines acc xs
       else runLines (runLines acc xs).1 ys) := by
  induction xs generalizing acc with
  | nil => simp [runLines]
  | cons x xs ih =>
    simp only [List.cons_append, runLines]
    rcases h : (processLine x).2 with _ | _
    · simp only [h, if_false, Bool.false_eq_true]
      exact ih (acc ++ (processLine x).1)
    · simp [h]

lemma runChunks_merge (buf : List Char) (acc : List (List Char))
    (c1 c2 : List Char) (rest : List (List Char)) :
    runChunks buf acc (c1 :: c2 :: rest) = runChunks buf acc ((c1 ++ c2) :: rest) := by
  simp only [runChunks]
  rw [show buf ++ (c1 ++ c2) = (buf ++ c1) ++ c2 by simp]
  rw [splitNl_append (buf ++ c1) c2]
  rw [runLines_append]
  rcases h1 : (runLines acc (splitNl (buf ++ c1)).1).2 with _ | _
  · simp [h1, runChunks]
  · simp [h1]

lemma runChunks_cons_cat (cs : List (List Char)) :
    ∀ (buf : List Char) (acc : List (List Char)) (c : List Char),
      runChunks buf acc (c :: cs) = runChunks buf acc [c ++ catL cs] := by
  induction cs with
  | nil => intro buf acc c; simp [catL]
  | cons c2 cs ih =>
    intro buf acc c
    rw [runChunks_merge, ih, catL, List.append_assoc]

lemma streamYields_catL (cs : List (List Char)) :
    streamYields cs = streamYields [catL cs] := by
  cases cs with
  | nil => rfl
  | cons c cs => exact runChunks_cons_cat cs [] [] c

lemma skipWs_cons_nonws (c : Char) (r : List Char) (h : isWs c = false) :
    skipWs (c :: r) = c :: r := by
  simp [skipWs, h]

lemma dropTrailingWs_concat (l : List Char) (d : Char) (h : isWs d = false) :
    dropTrailingWs (l ++ [d]) = l ++ [d] := by
  simp [dropTrailingWs, h]

lemma jsTrim_cons_concat (c : Char) (l : List Char) (d : Char)
    (hc : isWs c = false) (hd : isWs d = false) :
    jsTrim (c :: (l ++ [d])) = c :: (l ++ [d]) := by
  rw [jsTrim, List.dropWhile_cons, hc]
  simp only [Bool.false_eq_true, if_false]
  rw [show c :: (l ++ [d]) = (c :: l) ++ [d] from rfl]
  exact dropTrailingWs_concat (c :: l) d hd

lemma startsWithL_append (p l : List Char) : startsWithL p (p ++ l) = true := by
  induction p with
  | nil => rfl
  | cons c p ih => simp [startsWithL, ih]

lemma drop6_dataTag (x : List Char) : (dataTag ++ x).drop 6 = x := by
  simp [dataTag]

lemma parseStringBody_escape (s r : List Char) :
    parseStringBody (escape s ++ ('"' :: r)) = some (s, r) := by
  induction s with
  | nil =>
    rw [show escape [] ++ ('"' :: r) = '"' :: r from rfl, parseStringBody.eq_def]
    simp
  | cons c cs ih =>
    by_cases h1 : c = '"'
    · subst h1
      simp [escape, escapeChar, parseStringBody, unescapeChar, ih]
    · by_cases h2 : c = '\\'
      · subst h2
        simp [escape, escapeChar, parseStringBody, unescapeChar, ih]
      · by_cases h3 : c = '\n'
        · subst h3
          simp [escape, escapeChar, parseStringBody, unescapeChar, ih]
        · by_cases h4 : c = '\r'
          · subst h4
            simp [escape, escapeChar, parseStringBody, unescapeChar, ih]
          · by_cases h5 : c = '\t'
            · subst h5
              simp [escape, escapeChar, parseStringBody, unescapeChar, ih]
            · rw [show escape (c :: cs) ++ ('"' :: r) = c :: (escape cs ++ ('"' :: r)) from by
                simp [escape, escapeChar, h1, h2, h3, h4, h5]]
              rw [parseStringBody.eq_def]
              simp [h1, h2, ih]

lemma parseStringBody_plain (k r : List Char) (hk : ∀ c ∈ k, ¬c = '"' ∧ ¬c = '\\') :
    parseStringBody (k ++ ('"' :: r)) = some (k, r) := by
  induction k with
  | nil =>
    rw [List.nil_append, parseStringBody.eq_def]
    simp
  | cons c k ih =>
    have hc := hk c (List.mem_cons_self c k)
    rw [List.cons_append, parseStringBody.eq_def]
    simp [hc.1, hc.2, ih (fun d hd => hk d (List.mem_cons_of_mem c hd))]

lemma skipWs_cons_ws (c : Char) (r : List Char) (h : isWs c = true) :
    skipWs (c :: r) = skipWs r := by
  simp [skipWs, h]

lemma parseMembersF_single (fuel : Nat) (k v : List Char)
    (hk : ∀ c ∈ k, ¬c = '"' ∧ ¬c = '\\') :
    parseMembersF (fuel + 1)
      ('"' :: (k ++ ('"' :: (':' :: ' ' :: '"' :: (escape v ++ '"' :: '\x7d' :: []))))) =
      some ([(k, v)], ['\x7d']) := by
  have hkey := parseStringBody_plain k (':' :: ' ' :: '"' :: (escape v ++ '"' :: '\x7d' :: [])) hk
  have hval := parseStringBody_escape v ('\x7d' :: [])
  simp [parseMembersF, parseJString, hkey, hval,
    skipWs_cons_nonws _ _ (show isWs ':' = false by decide),
    skipWs_cons_ws _ _ (show isWs ' ' = true by decide),
    skipWs_cons_nonws _ _ (show isWs '"' = false by decide),
    skipWs_cons_nonws _ _ (show isWs '\x7d' = false by decide)]

lemma jsonParse_encodeObj (k v : List Char) (hk : ∀ c ∈ k, ¬c = '"' ∧ ¬c = '\\') :
    jsonParse (encodeObj k v) = some [(k, v)] := by
  rw [jsonParse.eq_def]
  simp [encodeObj, objBody, skipWs,
    (show isWs '\x7b' = false by decide), (show isWs '"' = false by decide),
    (show isWs '\x7d' = false by decide),
    parseMembersF_single _ k v hk]

lemma jsTrim_dataLine (k v : List Char) :
    jsTrim (dataTag ++ encodeObj k v) = dataTag ++ encodeObj k v := by
  have h : dataTag ++ encodeObj k v =
      'd' :: ((['a', 't', 'a', ':', ' ', '\x7b'] ++ objBody k v) ++ ['\x7d']) := by
    simp [dataTag, encodeObj]
  rw [h]
  exact jsTrim_cons_concat 'd' _ '\x7d' (by decide) (by decide)

lemma jsTrim_encodeObj (k v : List Char) :
    jsTrim (encodeObj k v) = encodeObj k v := by
  rw [show encodeObj k v = '\x7b' :: (objBody k v ++ ['\x7d']) from rfl]
  exact jsTrim_cons_concat '\x7b' _ '\x7d' (by decide) (by decide)

lemma encodeObj_ne_done (k v : List Char) : encodeObj k v ≠ doneLit := by
  intro h
  rw [encodeObj, doneLit] at h
  injection h with h1 _
  exact absurd h1 (by decide)

lemma getField_single (k v q : List Char) :
    getField [(k, v)] q = if k = q then some v else none := by
  simp [getField]

lemma parsedYields_content (s : List Char) :
    parsedYields [(contentKey, s)] = if s = [] then [] else [s] := by
  rw [parsedYields.eq_def, getField_single]
  simp [truthy]

lemma parsedYields_error (e : List Char) :
    parsedYields [(errorKey, e)] = [] := by
  rw [parsedYields.eq_def, getField_single]
  simp [(show ¬errorKey = contentKey by decide)]

lemma processLine_encodeObj (k v : List Char) (hk : ∀ c ∈ k, ¬c = '"' ∧ ¬c = '\\') :
    processLine (dataTag ++ encodeObj k v) = (parsedYields [(k, v)], false) := by
  simp only [processLine, jsTrim_dataLine]
  rw [if_neg (by simp [dataTag] : ¬(dataTag ++ encodeObj k v = []))]
  simp only [startsWithL_append, if_true, drop6_dataTag, jsTrim_encodeObj]
  rw [if_neg (encodeObj_ne_done k v)]
  rw [if_neg (by simp [encodeObj] : ¬(encodeObj k v = []))]
  rw [jsonParse_encodeObj k v hk]

lemma processLine_content (s : List Char) :
    processLine (dataLineOf (Frame.content s)) = (if s = [] then [] else [s], false) := by
  rw [dataLineOf, encodeFrame, processLine_encodeObj contentKey s (by decide), parsedYields_content]

lemma processLine_error (e : List Char) :
    processLine (dataLineOf (Frame.error e)) = ([], false) := by
  rw [dataLineOf, encodeFrame, processLine_encodeObj errorKey e (by decide), parsedYields_error]

lemma processLine_done : processLine (dataLineOf Frame.done) = ([], true) := by decide

lemma processLine_nil : processLine [] = ([], false) := by decide

lemma noNl_append (a b : List Char) (ha : ∀ c ∈ a, ¬c = '\n') (hb : ∀ c ∈ b, ¬c = '\n') :
    ∀ c ∈ a ++ b, ¬c = '\n' := by
  intro c hc
  rcases List.mem_append.1 hc with h | h
  · exact ha c h
  · exact hb c h

lemma noNl_cons (d : Char) (a : List Char) (hd : ¬d = '\n') (ha : ∀ c ∈ a, ¬c = '\n') :
    ∀ c ∈ d :: a, ¬c = '\n' := by
  intro c hc
  rcases List.mem_cons.1 hc with h | h
  · exact h ▸ hd
  · exact ha c h

lemma escapeChar_no_nl (c : Char) : ∀ d ∈ escapeChar c, ¬d = '\n' := by
  by_cases h1 : c = '"'
  · subst h1; decide
  by_cases h2 : c = '\\'
  · subst h2; decide
  by_cases h3 : c = '\n'
  · subst h3; decide
  by_cases h4 : c = '\r'
  · subst h4; decide
  by_cases h5 : c = '\t'
  · subst h5; decide
  simp [escapeChar, h1, h2, h3, h4, h5]

lemma escape_no_nl (v : List Char) : ∀ d ∈ escape v, ¬d = '\n' := by
  induction v with
  | nil => simp [escape]
  | cons c cs ih =>
    rw [escape]
    exact noNl_append _ _ (escapeChar_no_nl c) ih

lemma encodeObj_no_nl (k v : List Char) (hk : ∀ c ∈ k, ¬c = '\n') :
    ∀ c ∈ encodeObj k v, ¬c = '\n' := by
  rw [encodeObj, objBody]
  refine noNl_cons _ _ (by decide) (noNl_append _ _ (noNl_cons _ _ (by decide) ?_) (by decide))
  exact noNl_append _ _
    (noNl_append _ _ (noNl_append _ _ hk (by decide)) (escape_no_nl v)) (by decide)

lemma dataLineOf_no_nl (f : Frame) : ∀ c ∈ dataLineOf f, ¬c = '\n' := by
  rw [dataLineOf]
  refine noNl_append _ _ (by decide) ?_
  cases f with
  | content s => exact encodeObj_no_nl contentKey s (by decide)
  | error e => exact encodeObj_no_nl errorKey e (by decide)
  | done => decide

lemma splitNl_line (p r : List Char) (hp : ∀ c ∈ p, ¬c = '\n') :
    splitNl (p ++ '\n' :: r) = (p :: (splitNl r).1, (splitNl r).2) := by
  induction p with
  | nil =>
    rw [List.nil_append]
    rw [show splitNl ('\n' :: r) = splitNlStep '\n' (splitNl r) from rfl, splitNlStep_nl]
  | cons c p ih =>
    have hc := hp c (List.mem_cons_self c p)
    rw [List.cons_append,
      show splitNl (c :: (p ++ '\n' :: r)) = splitNlStep c (splitNl (p ++ '\n' :: r)) from rfl,
      ih (fun d hd => hp d (List.mem_cons_of_mem c hd)),
      splitNlStep_other c _ hc]

lemma splitNl_wire (fs : List Frame) : splitNl (wireL fs) = (linesOf fs, []) := by
  induction fs with
  | nil => rfl
  | cons f fs ih =>
    have h : wireL (f :: fs) = dataLineOf f ++ '\n' :: ('\n' :: wireL fs) := by
      rw [wireL, List.map_cons, catL, frameLine, dataLineOf]
      simp [wireL]
    rw [h, splitNl_line _ _ (dataLineOf_no_nl f),
      show splitNl ('\n' :: wireL fs) = splitNlStep '\n' (splitNl (wireL fs)) from rfl]
    rw [splitNlStep_nl, ih, linesOf]

lemma runLines_linesOf (fs : List Frame) :
    ∀ acc : List (List Char),
      runLines acc (linesOf fs) = (acc ++ frameYields fs, frameStopsAt fs) := by
  induction fs with
  | nil => intro acc; simp [linesOf, runLines, frameYields, frameStopsAt]
  | cons f fs ih =>
    intro acc
    cases f with
    | content s =>
      rw [linesOf, runLines, processLine_content]
      simp only [if_false, Bool.false_eq_true, runLines, processLine_nil]
      rw [ih]
      simp [frameYields, frameStopsAt]
    | error e =>
      rw [linesOf, runLines, processLine_error]
      simp only [if_false, Bool.false_eq_true, runLines, processLine_nil]
      rw [ih]
      simp [frameYields, frameStopsAt]
    | done =>
      rw [linesOf, runLines, processLine_done]
      simp [frameYields, frameStopsAt]

lemma streamYields_wire (fs : List Frame) : streamYields [wireL fs] = frameYields fs := by
  rw [streamYields, runChunks, List.nil_append, splitNl_wire]
  rw [runLines_linesOf fs []]
  simp only [List.nil_append]
  cases h : frameStopsAt fs <;> simp [runChunks]

lemma frameYields_contents (cs : List (List Char)) (fs : List Frame) :
    frameYields (cs.map Frame.content ++ fs) =
      cs.filter (fun c => !c.isEmpty) ++ frameYields fs := by
  induction cs with
  | nil => simp
  | cons c cs ih =>
    cases c with
    | nil => simp [frameYields, ih, List.filter]
    | cons d c => simp [frameYields, ih, List.filter]

lemma frameYields_error_middle (pre : List Frame) (e : List Char) (post : List Frame) :
    frameYields (pre ++ Frame.error e :: post) = frameYields (pre ++ post) := by
  induction pre with
  | nil => simp [frameYields]
  | cons f pre ih =>
    cases f <;> simp [frameYields, ih]

lemma catL_filter_nonempty (cs : List (List Char)) :
    catL (cs.filter (fun c => !c.isEmpty)) = catL cs := by
  induction cs with
  | nil => rfl
  | cons c cs ih =>
    cases c with
    | nil => simp [catL, List.filter, ih]
    | cons d c => simp [catL, List.filter, ih]

lemma updateLastAssistant_snoc (ms : List Msg) (c0 c : List Char) :
    updateLastAssistant (ms ++ [⟨Role.assistant, c0⟩]) c = ms ++ [⟨Role.assistant, c⟩] := by
  induction ms with
  | nil => simp [updateLastAssistant]
  | cons m2 ms ih =>
    rcases ms with _ | ⟨m3, ms3⟩
    · simp [updateLastAssistant]
    · simp only [List.cons_append] at ih ⊢
      rw [updateLastAssistant, ih]

lemma streamLoop_snoc (ys : List (List Char)) :
    ∀ (ms : List Msg) (full : List Char),
      streamLoop (ms ++ [⟨Role.assistant, full⟩]) full ys =
        (ms ++ [⟨Role.assistant, full ++ catL ys⟩], full ++ catL ys) := by
  induction ys with
  | nil =>
    intro ms full
    simp [streamLoop, catL]
  | cons y ys ih =>
    intro ms full
    rw [streamLoop, updateLastAssistant_snoc, ih ms (full ++ y)]
    simp [catL, List.append_assoc]

lemma streamChatMessage_ok_wire (fs : List Frame) :
    streamChatMessage ⟨true, some [wireL fs]⟩ = ⟨frameYields fs, none⟩ := by
  simp [streamChatMessage, streamYields_wire]

/-- C9: `streamChatMessage` is insensitive to how the network delivers the
response bytes: two partitions of the same decoded byte sequence into read
chunks produce the identical sequence of yielded content strings, because
only complete newline-terminated lines are parsed and the incomplete tail
is carried in the buffer. -/
theorem c9_chunking_insensitive (cs1 cs2 : List (List Char)) (h : catL cs1 = catL cs2) :
    streamYields cs1 = streamYields cs2 := by
  rw [streamYields_catL cs1, streamYields_catL cs2, h]

theorem c9_witness :
    catL ["data: \x7b\"content\": \"hi\"\x7d\nd".data, "ata: [DONE]\n".data] =
        catL ["data: \x7b\"content\": \"hi\"\x7d\ndata: [DONE]\n".data] ∧
      streamYields ["data: \x7b\"content\": \"hi\"\x7d\nd".data, "ata: [DONE]\n".data] =
        streamYields ["data: \x7b\"content\": \"hi\"\x7d\ndata: [DONE]\n".data] :=
  ⟨by decide, c9_chunking_insensitive _ _ (by decide)⟩

/-- C2 (amended): for a response stream of zero or more content frames,
optionally one error frame, a `[DONE]` frame, and anything after it, the
generator ends at the first `[DONE]` and yields, in order, exactly the
non-empty content fields of the frames preceding it (a frame whose content
field is the empty string yields nothing), yielding nothing from any frame
after `[DONE]`. -/
theorem c2_stream_grammar (cs : List (List Char)) (eOpt : Option (List Char)) (rest : List Frame) :
    streamYields [wireL (cs.map Frame.content ++
        (match eOpt with | none => [] | some e => [Frame.error e]) ++ (Frame.done :: rest))] =
      cs.filter (fun c => !c.isEmpty) := by
  rw [streamYields_wire, List.append_assoc, frameYields_contents]
  cases eOpt <;> simp [frameYields]

/-- C2 counterexample: the claim as stated says the generator yields exactly
the content fields of the JSON `data:` frames preceding `[DONE]`; on the
stream consisting of one frame whose content field is the empty string,
those fields are `[""]` but the generator yields nothing, because
`api.ts:101` guards the yield with JavaScript truthiness. -/
theorem c2_counterexample :
    streamYields [wireL [Frame.content [], Frame.done]] = [] ∧
      ¬ streamYields [wireL [Frame.content [], Frame.done]] = [[]] := by
  decide

/-- C3: an `{error}` frame never raises to the caller and never terminates
the stream: the generator as a whole throws nothing once a body is
present, the line carrying an error envelope yields nothing and does not
stop the loop, and a stream with an error frame inserted anywhere yields
exactly what the stream without it yields. -/
theorem c3_error_frames_swallowed :
    (∀ chunks : List (List Char), (streamChatMessage ⟨true, some chunks⟩).thrown = none) ∧
    (∀ e : List Char, processLine (dataLineOf (Frame.error e)) = ([], false)) ∧
    (∀ (pre : List Frame) (e : List Char) (post : List Frame),
      streamYields [wireL (pre ++ Frame.error e :: post)] =
        streamYields [wireL (pre ++ post)]) := by
  refine ⟨fun chunks => rfl, processLine_error, fun pre e post => ?_⟩
  rw [streamYields_wire, streamYields_wire, frameYields_error_middle]

/-- C4: a response whose `ok` flag is false makes `streamChatMessage` throw
before reading any of the response body (the result is the same for every
body) and yield zero content frames. -/
theorem c4_upfront_failure (body : Option (List (List Char))) :
    streamChatMessage ⟨false, body⟩ = ⟨[], some failedMsg⟩ := rfl

/-- C1: for a successful stream (content frames then `[DONE]`), `handleSend`
accumulates exactly the yielded chunks into `fullContent` and stores that
string, and nothing else, as the assistant message's content; the stored
content equals the concatenation, in emission order, of the content fields
of all frames. -/
theorem c1_assistant_content (st : ChatState) (cs : List (List Char))
    (h1 : ¬jsTrim st.input = []) (h2 : st.isStreaming = false) :
    (handleSend st ⟨true, some [wireL (cs.map Frame.content ++ [Frame.done])]⟩).1.messages =
      st.messages ++ [⟨Role.user, st.input⟩, ⟨Role.assistant, catL cs⟩] := by
  rw [handleSend]
  rw [if_neg (by simp [h1, h2])]
  rw [streamChatMessage_ok_wire]
  simp only [frameYields_contents, frameYields, List.append_nil]
  rw [show st.messages ++ [⟨Role.user, st.input⟩, ⟨Role.assistant, []⟩] =
      (st.messages ++ [⟨Role.user, st.input⟩]) ++ [(⟨Role.assistant, []⟩ : Msg)] by simp]
  rw [streamLoop_snoc]
  simp [catL_filter_nonempty]

theorem c1_witness :
    ¬jsTrim "hi".data = [] ∧
      (handleSend ⟨[], "hi".data, false⟩
          ⟨true, some [wireL (["He".data, "llo".data].map Frame.content ++ [Frame.done])]⟩).1.messages =
        [] ++ [⟨Role.user, "hi".data⟩, ⟨Role.assistant, catL ["He".data, "llo".data]⟩] :=
  ⟨by decide, c1_assistant_content ⟨[], "hi".data, false⟩ ["He".data, "llo".data] (by decide) (by decide)⟩

def completedStr : List Char := "completed".data

/-- A chat row as the relay sees it (id and owning user). -/
structure ChatRec where
  id : List Char
  owner : List Char
deriving DecidableEq

/-- A file row with its ingested chunks, as the relay reads them. -/
structure FileRec where
  id : List Char
  owner : List Char
  status : List Char
  name : List Char
  chunks : List (List Char)
deriving DecidableEq

/-- Modelled from the spec: the valid file identifiers of a request (§4.1) —
those ids in `file_ids` that belong to a `completed` file owned by the
requesting user; every other id is silently dropped.  The backend relay
that performs this filtering is not under src/. -/
def validFileIds (files : List FileRec) (uid : List Char) (fids : List (List Char)) :
    List (List Char) :=
  fids.filter (fun fid =>
    files.any (fun f => f.id = fid ∧ f.owner = uid ∧ f.status = completedStr))

/-- Modelled from the spec: the labelled excerpt block of one file — its
display name followed by its chunks concatenated in sequence order. -/
def fileBlock (f : FileRec) : List Char :=
  f.name ++ '\n' :: catL f.chunks

/-- Modelled from the spec: the excerpt blocks of a request, one per valid
file id, in the order `file_ids` was supplied. -/
def excerptBlocks (files : List FileRec) (uid : List Char) (fids : List (List Char)) :
    List (List Char) :=
  (validFileIds files uid fids).map (fun fid =>
    match files.find? (fun f => f.id = fid) with
    | some f => fileBlock f
    | none => [])

def systemInstr : List Char :=
  "Answer only from the provided excerpts and the conversation; state explicitly when the information is absent. ".data

/-- Outcome of one send-message request: an upfront failure, or the SSE
frames streamed to the client together with the two persisted messages. -/
inductive SendOutcome
  | notFound
  | invalidArgument
  | ok (frames : List Frame) (persisted : List Msg)
deriving DecidableEq

/-- Modelled from the spec: the relay algorithm of §4.1 (the FastAPI
backend is not under src/).  The chat must exist and be owned by the
caller (`NotFound`), the message must be non-empty after trimming
(`InvalidArgument`, checked before anything is persisted or streamed);
then the prompt is assembled from the system instruction, the excerpt
blocks, the history and the new message, the provider's fragments are
forwarded as content frames followed by `[DONE]`, and the user and
assistant messages are persisted. -/
def sendMessage (chats : List ChatRec) (files : List FileRec) (history : List Msg)
    (chatId uid text : List Char) (fids : List (List Char))
    (provider : List Char → List (List Char)) : SendOutcome :=
  if chats.any (fun c => c.id = chatId ∧ c.owner = uid) then
    if jsTrim text = [] then SendOutcome.invalidArgument
    else
      let prompt := systemInstr ++ catL (excerptBlocks files uid fids) ++
        catL (history.map Msg.content) ++ text
      let frags := provider prompt
      SendOutcome.ok (frags.map Frame.content ++ [Frame.done])
        [⟨Role.user, text⟩, ⟨Role.assistant, catL frags⟩]
  else SendOutcome.notFound

/-- A file row as the `FileList` component renders it (id and status from
`getUserFiles`). -/
structure FileUI where
  id : List Char
  status : List Char
deriving DecidableEq

/-- The click handler of `FileList` combined with `handleFileSelect` of the
chat page: `onFileSelect` fires only when the file's status is
`completed`, and then toggles the id in the selected set. -/
def clickFile (f : FileUI) (sel : List (List Char)) : List (List Char) :=
  if f.status = completedStr then
    if f.id ∈ sel then sel.filter (fun i => i ≠ f.id) else sel ++ [f.id]
  else sel

/-- `loadChatFiles` of the chat page: the auto-selected set is the ids of
the files whose status is `completed`. -/
def loadChatFilesSel (files : List FileUI) : List (List Char) :=
  (files.filter (fun f => f.status = completedStr)).map FileUI.id

/-- Every selected id belongs to a completed file of the rendered list. -/
def onlyCompleted (files : List FileUI) (sel : List (List Char)) : Prop :=
  ∀ i ∈ sel, ∃ f ∈ files, f.id = i ∧ f.status = completedStr

/-- C5: `send-message` fails with `InvalidArgument` when the message text is
empty after trimming, with nothing persisted and no SSE stream opened; on
the client, `handleSend` returns unchanged without calling
`streamChatMessage` and without appending any message. -/
theorem c5_empty_message (chats : List ChatRec) (files : List FileRec) (history : List Msg)
    (cid uid : List Char) (fids : List (List Char)) (prov : List Char → List (List Char))
    (st : ChatState) (resp : FetchResponse)
    (h1 : jsTrim st.input = [])
    (h2 : chats.any (fun c => c.id = cid ∧ c.owner = uid) = true) :
    sendMessage chats files history cid uid st.input fids prov = SendOutcome.invalidArgument ∧
      handleSend st resp = (st, false) := by
  constructor
  · rw [sendMessage, if_pos h2, if_pos h1]
  · rw [handleSend, if_pos (Or.inl h1)]

theorem c5_witness :
    jsTrim ("  ".data) = [] ∧
      sendMessage [⟨"c1".data, "u1".data⟩] [] [] "c1".data "u1".data "  ".data [] (fun _ => []) =
        SendOutcome.invalidArgument ∧
      handleSend ⟨[], "  ".data, false⟩ ⟨true, some []⟩ = (⟨[], "  ".data, false⟩, false) := by
  refine ⟨by decide, ?_⟩
  have h := c5_empty_message [⟨"c1".data, "u1".data⟩] [] [] "c1".data "u1".data []
    (fun _ => []) ⟨[], "  ".data, false⟩ ⟨true, some []⟩ (by decide) (by decide)
  exact h

lemma validFileIds_drop (files : List FileRec) (uid fid : List Char) (fids : List (List Char))
    (h1 : ∀ f ∈ files, ¬(f.id = fid ∧ f.owner = uid ∧ f.status = completedStr)) :
    validFileIds files uid fids = validFileIds files uid (fids.filter (fun x => x ≠ fid)) := by
  have hfid : (files.any fun f => decide (f.id = fid ∧ f.owner = uid ∧ f.status = completedStr)) = false := by
    rw [Bool.eq_false_iff]
    intro hcon
    rcases List.any_eq_true.1 hcon with ⟨f, hf, hp⟩
    exact h1 f hf (of_decide_eq_true hp)
  rw [validFileIds, validFileIds, List.filter_filter]
  apply List.filter_congr
  intro x hx
  by_cases hq : x = fid
  · subst hq
    simp [hfid]
    intro f hf hid hown hst
    exact h1 f hf ⟨hid, hown, hst⟩
  · simp [hq]

/-- C6: a file id that does not belong to a completed file owned by the
user contributes no excerpt content and produces no error (the request
still succeeds, and the excerpt blocks equal those of the request without
that id); on the client, only files whose status is `completed` can enter
the selected-files set, whether through a click or through the
auto-selection of `loadChatFiles`. -/
theorem c6_invalid_ids_dropped
    (files : List FileRec) (uid fid : List Char) (fids : List (List Char))
    (chats : List ChatRec) (history : List Msg) (cid text : List Char)
    (prov : List Char → List (List Char))
    (uiFiles : List FileUI) (sel : List (List Char)) (g : FileUI)
    (h1 : ∀ f ∈ files, ¬(f.id = fid ∧ f.owner = uid ∧ f.status = completedStr))
    (h2 : chats.any (fun c => c.id = cid ∧ c.owner = uid) = true)
    (h3 : ¬jsTrim text = [])
    (h4 : onlyCompleted uiFiles sel)
    (h5 : g ∈ uiFiles) :
    excerptBlocks files uid fids = excerptBlocks files uid (fids.filter (fun x => x ≠ fid)) ∧
      (∃ fr ms, sendMessage chats files history cid uid text fids prov = SendOutcome.ok fr ms) ∧
      onlyCompleted uiFiles (clickFile g sel) ∧
      onlyCompleted uiFiles (loadChatFilesSel uiFiles) := by
  refine ⟨?_, ?_, ?_, ?_⟩
  · rw [excerptBlocks, excerptBlocks, validFileIds_drop files uid fid fids h1]
  · rw [sendMessage, if_pos h2, if_neg h3]
    exact ⟨_, _, rfl⟩
  · intro i hi
    rw [clickFile] at hi
    by_cases hst : g.status = completedStr
    · rw [if_pos hst] at hi
      by_cases hmem : g.id ∈ sel
      · rw [if_pos hmem] at hi
        exact h4 i (List.mem_of_mem_filter hi)
      · rw [if_neg hmem] at hi
        rcases List.mem_append.1 hi with h | h
        · exact h4 i h
        · rcases List.mem_singleton.1 h with rfl
          exact ⟨g, h5, rfl, hst⟩
    · rw [if_neg hst] at hi
      exact h4 i hi
  · intro i hi
    rw [loadChatFilesSel] at hi
    rcases List.mem_map.1 hi with ⟨f, hf, rfl⟩
    have hf2 := List.mem_filter.1 hf
    exact ⟨f, hf2.1, rfl, of_decide_eq_true hf2.2⟩

theorem c6_witness :
    (∀ f ∈ [(⟨"f1".data, "u1".data, "completed".data, "a.pdf".data, ["x".data]⟩ : FileRec)],
        ¬(f.id = "f9".data ∧ f.owner = "u1".data ∧ f.status = completedStr)) ∧
      onlyCompleted [(⟨"f1".data, "completed".data⟩ : FileUI)] [] ∧
      (excerptBlocks [⟨"f1".data, "u1".data, "completed".data, "a.pdf".data, ["x".data]⟩]
          "u1".data ["f1".data, "f9".data] =
        excerptBlocks [⟨"f1".data, "u1".data, "completed".data, "a.pdf".data, ["x".data]⟩]
          "u1".data (["f1".data, "f9".data].filter (fun x => x ≠ "f9".data)) ∧
      (∃ fr ms, sendMessage [⟨"c1".data, "u1".data⟩]
          [⟨"f1".data, "u1".data, "completed".data, "a.pdf".data, ["x".data]⟩]
          [] "c1".data "u1".data "hi".data ["f1".data, "f9".data] (fun _ => ["ans".data]) =
            SendOutcome.ok fr ms) ∧
      onlyCompleted [(⟨"f1".data, "completed".data⟩ : FileUI)]
        (clickFile ⟨"f1".data, "completed".data⟩ []) ∧
      onlyCompleted [(⟨"f1".data, "completed".data⟩ : FileUI)]
        (loadChatFilesSel [⟨"f1".data, "completed".data⟩])) :=
  ⟨by decide, (by intro i hi; cases hi),
    c6_invalid_ids_dropped
      [⟨"f1".data, "u1".data, "completed".data, "a.pdf".data, ["x".data]⟩]
      "u1".data "f9".data ["f1".data, "f9".data]
      [⟨"c1".data, "u1".data⟩] [] "c1".data "hi".data (fun _ => ["ans".data])
      [⟨"f1".data, "completed".data⟩] [] ⟨"f1".data, "completed".data⟩
      (by decide) (by decide) (by decide) (by intro i hi; cases hi) (by decide)⟩

/-- A row of the `files` table (`supabase.sql:38-49`), reduced to its key. -/
structure FileRow where
  id : List Char
deriving DecidableEq

/-- A row of the `file_chunks` table (`supabase.sql:52-60`). -/
structure ChunkRow where
  file_id : List Char
  chunk_index : Nat
  content : List Char
deriving DecidableEq

/-- The part of the database the cascade touches. -/
structure Db where
  files : List FileRow
  chunks : List ChunkRow
deriving DecidableEq

/-- Referential integrity of `file_chunks.file_id REFERENCES files(id)`:
every chunk's parent file row exists. -/
def refIntegrity (db : Db) : Prop :=
  ∀ c ∈ db.chunks, ∃ f ∈ db.files, f.id = c.file_id

instance (db : Db) : Decidable (refIntegrity db) :=
  inferInstanceAs (Decidable (∀ c ∈ db.chunks, ∃ f ∈ db.files, f.id = c.file_id))

/-- Deletion of a file row under `ON DELETE CASCADE`
(`supabase.sql:54`): the file row is removed and every `file_chunks` row
referencing it is removed with it. -/
def deleteFileCascade (db : Db) (fid : List Char) : Db :=
  { files := db.files.filter (fun f => f.id ≠ fid),
    chunks := db.chunks.filter (fun c => c.file_id ≠ fid) }

/-- C7: deleting a file deletes all of its chunks: after the cascade no
chunk with that `file_id` remains, and referential integrity is preserved,
so a `FileChunk` never exists without its parent `File`. -/
theorem c7_cascade_delete (db : Db) (fid : List Char) (h : refIntegrity db) :
    (∀ c ∈ (deleteFileCascade db fid).chunks, ¬c.file_id = fid) ∧
      refIntegrity (deleteFileCascade db fid) := by
  constructor
  · intro c hc
    have := List.mem_filter.1 hc
    exact of_decide_eq_true this.2
  · intro c hc
    have hc2 := List.mem_filter.1 hc
    have hne : ¬c.file_id = fid := of_decide_eq_true hc2.2
    rcases h c hc2.1 with ⟨f, hf, hfid⟩
    refine ⟨f, List.mem_filter.2 ⟨hf, decide_eq_true ?_⟩, hfid⟩
    rw [hfid]
    exact hne

theorem c7_witness :
    refIntegrity ⟨[⟨"f1".data⟩, ⟨"f2".data⟩], [⟨"f1".data, 0, "x".data⟩, ⟨"f2".data, 0, "y".data⟩]⟩ ∧
      ((∀ c ∈ (deleteFileCascade
          ⟨[⟨"f1".data⟩, ⟨"f2".data⟩], [⟨"f1".data, 0, "x".data⟩, ⟨"f2".data, 0, "y".data⟩]⟩
          "f1".data).chunks, ¬c.file_id = "f1".data) ∧
        refIntegrity (deleteFileCascade
          ⟨[⟨"f1".data⟩, ⟨"f2".data⟩], [⟨"f1".data, 0, "x".data⟩, ⟨"f2".data, 0, "y".data⟩]⟩
          "f1".data)) :=
  ⟨by decide,
    c7_cascade_delete
      ⟨[⟨"f1".data⟩, ⟨"f2".data⟩], [⟨"f1".data, 0, "x".data⟩, ⟨"f2".data, 0, "y".data⟩]⟩
      "f1".data (by decide)⟩

/-- A row of the `chats` table, reduced to what the policies read. -/
structure ChatRow where
  id : List Char
  owner : List Char
deriving DecidableEq

/-- A row of the `messages` table (`supabase.sql:28-35`). -/
structure MsgRow where
  chat_id : List Char
  role : List Char
  content : List Char
deriving DecidableEq

inductive SqlCmd
  | select
  | insert
  | update
  | delete
deriving DecidableEq

/-- One row-level-security policy on the `messages` table: the command it
covers and the predicate of its `USING`/`WITH CHECK` clause (given the
caller's uid). -/
structure MsgPolicy where
  cmd : SqlCmd
  permits : List Char → MsgRow → Bool

/-- The policies declared on `messages` in `supabase.sql:99-115`: one
SELECT policy and one INSERT policy, both scoped to chats the caller
owns; no UPDATE or DELETE policy exists. -/
def messagesPolicies (chats : List ChatRow) : List MsgPolicy :=
  [⟨SqlCmd.select, fun uid m => chats.any (fun c => c.id = m.chat_id ∧ c.owner = uid)⟩,
   ⟨SqlCmd.insert, fun uid m => chats.any (fun c => c.id = m.chat_id ∧ c.owner = uid)⟩]

/-- Row-level security with `ALTER TABLE messages ENABLE ROW LEVEL
SECURITY` (`supabase.sql:74`): a command touches a row only if some policy
for that command permits it. -/
def msgCmdAllowed (chats : List ChatRow) (uid : List Char) (cmd : SqlCmd) (m : MsgRow) : Bool :=
  (messagesPolicies chats).any (fun p => p.cmd = cmd && p.permits uid m)

/-- A client operation against the `messages` table. -/
inductive MsgOp
  | insertRow (m : MsgRow)
  | updateRows (sel : MsgRow → Bool) (f : MsgRow → MsgRow)
  | deleteRows (sel : MsgRow → Bool)

/-- Effect of one client operation under row-level security: an insert
appends when permitted; an update rewrites only the rows the policies
allow; a delete removes only the rows the policies allow. -/
def applyMsgOp (chats : List ChatRow) (uid : List Char) (msgs : List MsgRow) :
    MsgOp → List MsgRow
  | MsgOp.insertRow m => if msgCmdAllowed chats uid SqlCmd.insert m then msgs ++ [m] else msgs
  | MsgOp.updateRows sel f =>
    msgs.map (fun m => if sel m && msgCmdAllowed chats uid SqlCmd.update m then f m else m)
  | MsgOp.deleteRows sel =>
    msgs.filter (fun m => !(sel m && msgCmdAllowed chats uid SqlCmd.delete m))

def applyMsgOps (chats : List ChatRow) (uid : List Char) (msgs : List MsgRow)
    (ops : List MsgOp) : List MsgRow :=
  ops.foldl (applyMsgOp chats uid) msgs

lemma msgCmdAllowed_update (chats : List ChatRow) (uid : List Char) (m : MsgRow) :
    msgCmdAllowed chats uid SqlCmd.update m = false := by
  simp [msgCmdAllowed, messagesPolicies]

lemma msgCmdAllowed_delete (chats : List ChatRow) (uid : List Char) (m : MsgRow) :
    msgCmdAllowed chats uid SqlCmd.delete m = false := by
  simp [msgCmdAllowed, messagesPolicies]

/-- C8: messages are immutable once written: the `messages` table has only
SELECT and INSERT policies, so under row-level security any sequence of
client operations leaves every existing row in place with its role and
content unchanged — the table only ever grows by appended rows. -/
theorem c8_messages_immutable (chats : List ChatRow) (uid : List Char)
    (msgs : List MsgRow) (ops : List MsgOp) :
    ∃ appended, applyMsgOps chats uid msgs ops = msgs ++ appended := by
  induction ops generalizing msgs with
  | nil => exact ⟨[], by simp [applyMsgOps]⟩
  | cons op ops ih =>
    have hstep : ∃ e, applyMsgOp chats uid msgs op = msgs ++ e := by
      cases op with
      | insertRow m =>
        by_cases hall : msgCmdAllowed chats uid SqlCmd.insert m = true
        · exact ⟨[m], by simp [applyMsgOp, hall]⟩
        · exact ⟨[], by simp [applyMsgOp, hall]⟩
      | updateRows sel f =>
        refine ⟨[], ?_⟩
        simp [applyMsgOp, msgCmdAllowed_update]
      | deleteRows sel =>
        refine ⟨[], ?_⟩
        simp [applyMsgOp, msgCmdAllowed_delete]
    rcases hstep with ⟨e, he⟩
    rcases ih (msgs ++ e) with ⟨e2, he2⟩
    refine ⟨e ++ e2, ?_⟩
    rw [applyMsgOps, List.foldl_cons, he, ← List.append_assoc]
    exact he2

/-- The collaborators of the admin files route: token verification
(`supabase.auth.getUser`), the profile role lookup, and the result of the
`user_files` query. -/
structure AdminEnv where
  verifyUser : List Char → Option (List Char)
  roleOf : List Char → Option (List Char)
  filesQuery : Except (List Char) (List (List Char))

/-- A JSON response of the route: an error with its HTTP status, or the
file list (status 200). -/
inductive ApiResult
  | jsonError (status : Nat) (msg : List Char)
  | jsonFiles (files : List (List Char))
deriving DecidableEq

def bearerTag : List Char := "Bearer ".data

def unauthorizedMsg : List Char := "Unauthorized".data

def forbiddenMsg : List Char := "Forbidden - Admin only".data

def fetchFailMsg : List Char := "Failed to fetch files".data

def adminStr : List Char := "admin".data

/-- JavaScript `String.prototype.replace` with a plain-string pattern and
empty replacement: removes the first occurrence of the pattern. -/
def replaceFirst (pat : List Char) : List Char → List Char
  | [] => []
  | c :: r =>
    if startsWithL pat (c :: r) then List.drop pat.length (c :: r)
    else c :: replaceFirst pat r

/-- `GET` of `src/frontend/app/api/admin/files/route.ts`: 401 when the
Authorization header is absent or the token does not verify to a user;
403 when the verified user's profile role is not `admin`; 500 when the
`user_files` query fails; otherwise the file list. -/
def adminFilesGET (env : AdminEnv) (authHeader : Option (List Char)) : ApiResult :=
  match authHeader with
  | none => ApiResult.jsonError 401 unauthorizedMsg
  | some h =>
    match env.verifyUser (replaceFirst bearerTag h) with
    | none => ApiResult.jsonError 401 unauthorizedMsg
    | some uid =>
      if ¬env.roleOf uid = some adminStr then ApiResult.jsonError 403 forbiddenMsg
      else
        match env.filesQuery with
        | Except.error _ => ApiResult.jsonError 500 fetchFailMsg
        | Except.ok fs => ApiResult.jsonFiles fs

/-- C10: the admin file-listing endpoint returns 401 whenever the
Authorization header is absent or does not verify to a user, 403 whenever
the verified user's profile role is not `admin`, and returns the file
list only when the requester is a verified admin. -/
theorem c10_admin_gate :
    (∀ env : AdminEnv, adminFilesGET env none = ApiResult.jsonError 401 unauthorizedMsg) ∧
    (∀ (env : AdminEnv) (h : List Char),
      env.verifyUser (replaceFirst bearerTag h) = none →
        adminFilesGET env (some h) = ApiResult.jsonError 401 unauthorizedMsg) ∧
    (∀ (env : AdminEnv) (h uid : List Char),
      env.verifyUser (replaceFirst bearerTag h) = some uid →
        ¬env.roleOf uid = some adminStr →
          adminFilesGET env (some h) = ApiResult.jsonError 403 forbiddenMsg) ∧
    (∀ (env : AdminEnv) (ah : Option (List Char)) (fs : List (List Char)),
      adminFilesGET env ah = ApiResult.jsonFiles fs →
        ∃ h uid, ah = some h ∧ env.verifyUser (replaceFirst bearerTag h) = some uid ∧
          env.roleOf uid = some adminStr ∧ env.filesQuery = Except.ok fs) := by
  refine ⟨fun env => rfl, ?_, ?_, ?_⟩
  · intro env h hv
    rw [adminFilesGET, hv]
  · intro env h uid hv hr
    rw [adminFilesGET, hv]
    dsimp only
    rw [if_pos hr]
  · intro env ah fs hres
    match ah with
    | none => exact absurd hres (by rw [adminFilesGET]; intro hcon; cases hcon)
    | some h =>
      rw [adminFilesGET] at hres
      match hv : env.verifyUser (replaceFirst bearerTag h) with
      | none => rw [hv] at hres; cases hres
      | some uid =>
        rw [hv] at hres
        dsimp only at hres
        by_cases hr : ¬env.roleOf uid = some adminStr
        · rw [if_pos hr] at hres; cases hres
        · rw [if_neg hr] at hres
          match hq : env.filesQuery with
          | Except.error e => rw [hq] at hres; cases hres
          | Except.ok fs2 =>
            rw [hq] at hres
            cases hres
            exact ⟨h, uid, rfl, hv, not_not.1 hr, rfl⟩

theorem c10_witness :
    ((fun t => if t = "tok".data then some "u1".data else none) (replaceFirst bearerTag "Bearer bad".data) = none ∧
      adminFilesGET
        ⟨fun t => if t = "tok".data then some "u1".data else none,
         fun u => if u = "u1".data then some "admin".data else none,
         Except.ok ["f".data]⟩ (some "Bearer bad".data) =
          ApiResult.jsonError 401 unauthorizedMsg) ∧
      ∃ h uid, (some "Bearer tok".data : Option (List Char)) = some h ∧
        (fun t => if t = "tok".data then some "u1".data else none) (replaceFirst bearerTag h) = some uid ∧
        (fun u => if u = "u1".data then some "admin".data else none) uid = some adminStr ∧
        (Except.ok ["f".data] : Except (List Char) (List (List Char))) = Except.ok ["f".data] := by
  constructor
  · constructor
    · decide
    · exact c10_admin_gate.2.1
        ⟨fun t => if t = "tok".data then some "u1".data else none,
         fun u => if u = "u1".data then some "admin".data else none,
         Except.ok ["f".data]⟩ "Bearer bad".data (by decide)
  · exact c10_admin_gate.2.2.2
      ⟨fun t => if t = "tok".data then some "u1".data else none,
       fun u => if u = "u1".data then some "admin".data else none,
       Except.ok ["f".data]⟩ (some "Bearer tok".data) ["f".data] (by decide)
